import Mathlib

/-!
# Verification of the uploader's core (src/app.py)

A shallow embedding of the core of `src/app.py`: the bin-packing
partitioner (`split_files`), the fast-path partition step of `cli_main`,
the inventory walkers (`get_dir_size`, `collect_files`), the two manifest
builders, the verification step (`verify_upload`) and the observable event
trace of `cli_main`'s per-part pipeline.  Sizes are natural numbers of
bytes; Python lists become Lean lists; the external collaborators
(filesystem, hashing, remote execution) enter as explicit parameters.
-/

namespace Uploader

/-- One element of the `(relpath, abspath, size)` triples yielded by
`collect_files` in src/app.py. -/
structure FileDesc where
  rel : String
  abs : String
  sz : Nat
deriving DecidableEq, Repr

/-- `sum(f[2] for f in b)` — the aggregate size of one bin. -/
def binSize (b : List FileDesc) : Nat := (b.map (fun f => f.sz)).sum

/-- The order used by `sorted(files_list, key=lambda x: x[2], reverse=True)`:
`a` comes no later than `b` when `a`'s size is at least `b`'s. -/
def sizeGE (a b : FileDesc) : Prop := b.sz ≤ a.sz

instance : DecidableRel sizeGE := fun a b => Nat.decLe b.sz a.sz

instance : IsTotal FileDesc sizeGE := ⟨fun a b => Nat.le_total b.sz a.sz⟩

instance : IsTrans FileDesc sizeGE := ⟨fun _ _ _ h1 h2 => Nat.le_trans h2 h1⟩

/-- Python's `sorted(..., key=lambda x: x[2], reverse=True)` is a stable
descending sort by size; insertion sort with `sizeGE` computes exactly that
(stable sorts for the same key order coincide). -/
def sortDesc (files_list : List FileDesc) : List FileDesc :=
  files_list.insertionSort sizeGE

/-- The inner `for b in bins` scan of `split_files`: place `f` into the
first existing bin whose total plus `f`'s size stays within `max_size`;
`none` when no bin fits (`added` stays `False`). -/
def tryPlace (max_size : Nat) (f : FileDesc) : List (List FileDesc) → Option (List (List FileDesc))
  | [] => none
  | b :: bs =>
    if binSize b + f.sz ≤ max_size then some ((b ++ [f]) :: bs)
    else
      match tryPlace max_size f bs with
      | some bs2 => some (b :: bs2)
      | none => none

/-- The main loop of `split_files`, threading the bins and, alongside, the
files for which the oversize warning is printed to stderr. -/
def split_files_aux (max_size : Nat) :
    List FileDesc → List (List FileDesc) → List FileDesc →
    List (List FileDesc) × List FileDesc
  | [], bins, warns => (bins, warns)
  | f :: rest, bins, warns =>
    match tryPlace max_size f bins with
    | some bins2 => split_files_aux max_size rest bins2 warns
    | none =>
      split_files_aux max_size rest (bins ++ [[f]])
        (if max_size < f.sz then warns ++ [f] else warns)

/-- `split_files` from src/app.py (lines 33–47): sort by size descending
(stable), then first-fit into bins scanned in creation order, opening a new
bin at the end when nothing fits.  The Python default for `max_size` is
`150 * 1024**3`; callers here pass it explicitly. -/
def split_files (files_list : List FileDesc) (max_size : Nat) : List (List FileDesc) :=
  (split_files_aux max_size (sortDesc files_list) [] []).1

/-- The files for which `split_files` prints the oversize warning
(`"Warning: Single file ... > ...GB; treating as separate part."`). -/
def split_warnings (files_list : List FileDesc) (max_size : Nat) : List FileDesc :=
  (split_files_aux max_size (sortDesc files_list) [] []).2

/-- The placement step as worded in the specification (§4.2, steps 2–3):
scan existing bins in creation order, put the file in the first bin whose
current total plus the file's size does not exceed the ceiling, and open a
new bin at the end otherwise. -/
def specPlace (max_size : Nat) (f : FileDesc) : List (List FileDesc) → List (List FileDesc)
  | [] => [[f]]
  | b :: bs =>
    if (b.map (fun g => g.sz)).sum + f.sz ≤ max_size then (b ++ [f]) :: bs
    else b :: specPlace max_size f bs

/-- Step 2–4 of the specification's algorithm, run over an already sorted
file list, bins kept in creation order. -/
def ffdLoop (max_size : Nat) : List FileDesc → List (List FileDesc) → List (List FileDesc)
  | [], bins => bins
  | f :: fs, bins => ffdLoop max_size fs (specPlace max_size f bins)

/-- First-fit decreasing as worded in the specification: sort by size
descending with a stable tie-break, then first-fit in creation order. -/
def ffd_spec (files_list : List FileDesc) (max_size : Nat) : List (List FileDesc) :=
  ffdLoop max_size (sortDesc files_list) []

/-! ## The filesystem model and the inventory builder

`get_dir_size` and `collect_files` walk a real directory tree through
`os.scandir` / `os.walk`.  The tree is modelled as an abstract finite
filesystem: a directory is a list of entries in listing order, an entry is
a regular file with a size or a subdirectory.  (Symlinks and special files
are outside the model; the spec leaves their policy implementation-defined.) -/

/-- One entry of a directory listing: a regular file (name, size in bytes)
or a subdirectory with its own listing. -/
inductive FSEntry where
  | file (name : String) (size : Nat)
  | dir (name : String) (entries : List FSEntry)

/-- `get_dir_size` from src/app.py (lines 16–24): one `os.scandir` pass,
adding each regular file's size and recursing into subdirectories. -/
def get_dir_size : List FSEntry → Nat
  | [] => 0
  | .file _ size :: rest => size + get_dir_size rest
  | .dir _ es :: rest => get_dir_size es + get_dir_size rest

/-- `os.path.join` for the pure-path fragments this model builds: an empty
left component vanishes, otherwise the parts are joined with `/`. -/
def joinPath (p q : String) : String := if p = "" then q else p ++ "/" ++ q

/-- The `(relpath, abspath, size)` triples one `os.walk` step yields for
the regular files of the directory currently being visited, in listing
order. -/
def filesAt (base rel : String) (es : List FSEntry) : List FileDesc :=
  es.filterMap fun e =>
    match e with
    | .file n size => some ⟨joinPath rel n, joinPath base (joinPath rel n), size⟩
    | .dir _ _ => none

mutual

/-- `collect_files` from src/app.py (lines 26–31) rooted at a directory
with listing `es`: `os.walk` is top-down, so the current directory's files
come first, then each subdirectory is walked recursively in listing
order. -/
def collect_files_from (base rel : String) (es : List FSEntry) : List FileDesc :=
  filesAt base rel es ++ collect_subdirs base rel es

/-- The recursive sweep of `os.walk` over the subdirectories of the
directory currently being visited. -/
def collect_subdirs (base rel : String) : List FSEntry → List FileDesc
  | [] => []
  | .file _ _ :: rest => collect_subdirs base rel rest
  | .dir n sub :: rest =>
    collect_files_from base (joinPath rel n) sub ++ collect_subdirs base rel rest

end

/-- `list(collect_files(source_dir, source_dir))` — in `cli_main` both
arguments are the source directory, so relative paths start empty. -/
def collect_files (base : String) (es : List FSEntry) : List FileDesc :=
  collect_files_from base "" es

/-- The partition step of `cli_main` (src/app.py line 113–115): total size
by `get_dir_size`, inventory by `collect_files`, then either the
single-part fast path or `split_files` with the default 150 GiB ceiling. -/
def cli_partition (base : String) (es : List FSEntry) : List (List FileDesc) :=
  let total_size := get_dir_size es
  let files_list := collect_files base es
  if total_size ≤ 150 * 1024 ^ 3 then [files_list]
  else split_files files_list (150 * 1024 ^ 3)

/-! ## Part manifests and the filetype field -/

/-- Python's `str.rfind` for a single character, as an `Option`: the index
of the last occurrence, `none` when absent (Python returns `-1`). -/
def rfind : List Char → Char → Option Nat
  | [], _ => none
  | a :: t, c =>
    match rfind t c with
    | some j => some (j + 1)
    | none => if a = c then some 0 else none

/-- The extension part of `os.path.splitext` (posixpath, separator `/`):
the suffix from the last dot, provided that dot lies after the last
separator and the basename has at least one non-dot character before it
(leading dots of the basename never start an extension). -/
def splitext_ext (cs : List Char) : List Char :=
  match rfind cs '.' with
  | none => []
  | some d =>
    let start := match rfind cs '/' with | none => 0 | some s2 => s2 + 1
    if start ≤ d ∧ ((cs.drop start).take (d - start)).any (fun ch => ch ≠ '.') then
      cs.drop d
    else []

/-- `os.path.splitext(rel)[1][1:]` from `create_part_manifest` (line 69):
the extension with its leading dot stripped.  No lower-casing happens. -/
def filetype (rel : String) : String := String.mk ((splitext_ext rel.data).drop 1)

/-- `splitext_ext` restricted to a basename (no separator in sight): the
bridge between the source's index arithmetic and the spec's wording. -/
def extOfBasename (b : List Char) : List Char :=
  match rfind b '.' with
  | none => []
  | some j => if (b.take j).any (fun ch => ch ≠ '.') then b.drop j else []

/-- The basename of a relative path: everything after the last `/`. -/
def basenameOf (cs : List Char) : List Char :=
  match rfind cs '/' with
  | none => cs
  | some s2 => cs.drop (s2 + 1)

/-- The final extension named by the spec, computed independently of
`splitext_ext`: drop the basename's leading dots (they never start an
extension), then take everything after the last remaining dot.  Empty when
there is no extension. -/
def spec_extension (cs : List Char) : List Char :=
  let b2 := (basenameOf cs).dropWhile (fun ch => ch = '.')
  match rfind b2 '.' with
  | none => []
  | some j => b2.drop (j + 1)

/-- The filetype as the spec describes it, except for the lower-casing:
the final extension of the relative path, without the leading separator,
case preserved. -/
def spec_filetype (rel : String) : String := String.mk (spec_extension rel.data)

/-- The filetype exactly as the spec claims it: the final extension of the
relative path, lower-cased, without the leading separator. -/
def spec_filetype_lowercased (rel : String) : String :=
  String.mk ((spec_extension rel.data).map Char.toLower)

/-- One entry of `PartManifest.files`; `mtime` comes from the external
`os.path.getmtime` query, supplied to the builder as an oracle. -/
structure FileEntry where
  relpath : String
  size : Nat
  filetype : String
  mtime : Nat
deriving DecidableEq, Repr

/-- The per-part manifest record of `create_part_manifest` (lines 63–78);
the JSON write is the identity on this record. -/
structure PartManifest where
  part_id : Nat
  tar_file : String
  sha256 : String
  files : List FileEntry
  total_size : Nat
  file_count : Nat
deriving DecidableEq, Repr

/-- `create_part_manifest` from src/app.py (lines 63–78), with
`os.path.getmtime` abstracted as `mtimeOf` over absolute paths. -/
def create_part_manifest (mtimeOf : String → Nat) (part_files : List FileDesc)
    (tar_name : String) (sha : String) (part_idx : Nat) : PartManifest :=
  ⟨part_idx, tar_name, sha,
    part_files.map (fun f => ⟨f.rel, f.sz, filetype f.rel, mtimeOf f.abs⟩),
    (part_files.map (fun f => f.sz)).sum,
    part_files.length⟩

/-! ## Master manifest -/

/-- One element of `parts_info` in `cli_main`: built at planning time with
`tar_file` and `manifest` absent, both filled in by `dict.update` once the
part's archive and manifest exist. -/
structure PartInfo where
  part_id : Nat
  destination : String
  total_size : Nat
  file_count : Nat
  tar_file : Option String
  manifest : Option String
deriving DecidableEq, Repr

/-- The record `update_master_manifest` serializes (lines 80–91). -/
structure MasterManifest where
  upload_name : String
  source_dir : String
  parts : List PartInfo
  total_size : Nat
  total_files : Nat
deriving DecidableEq, Repr

/-- The record built by `update_master_manifest` (lines 81–87): totals are
sums over the `parts_info` argument alone. -/
def update_master_manifest_record (upload_name source_dir : String)
    (parts_info : List PartInfo) : MasterManifest :=
  ⟨upload_name, source_dir, parts_info,
    (parts_info.map (fun p => p.total_size)).sum,
    (parts_info.map (fun p => p.file_count)).sum⟩

/-- `f"{upload_name}_master.json"` — the on-disk key of the master
manifest. -/
def masterPath (upload_name : String) : String := upload_name ++ "_master.json"

/-- The write of `update_master_manifest`: the file store maps paths to
records, and opening with mode `w` replaces the record at the derived path
wholesale. -/
def writeMaster (store : String → Option MasterManifest)
    (upload_name source_dir : String) (parts_info : List PartInfo) :
    String → Option MasterManifest :=
  fun p =>
    if p = masterPath upload_name then
      some (update_master_manifest_record upload_name source_dir parts_info)
    else store p

/-! ## Verification and the pipeline trace -/

/-- The two fatal failure shapes of the transfer phase: a
`subprocess.CalledProcessError` from an external tool (tar/rsync/ssh), and
the `ValueError` raised by `verify_upload` on a digest mismatch. -/
inductive PipelineError where
  | subprocessError (cmd : String)
  | verificationFailed (tar_name remote_sha local_sha : String)
deriving DecidableEq, Repr

/-- `verify_upload` from src/app.py (lines 97–102): `remote_sha` is the
stripped output of the remote `sha256sum` invocation; any difference from
the local digest raises the `ValueError`, equality returns normally. -/
def verify_upload (tar_name remote_sha sha256 : String) : Except PipelineError Unit :=
  if remote_sha ≠ sha256 then
    .error (.verificationFailed tar_name remote_sha sha256)
  else .ok ()

/-- `f"{upload_name}_part{i}.tar.gz"` (line 126). -/
def tarName (upload_name : String) (i : Nat) : String :=
  upload_name ++ "_part" ++ toString i ++ ".tar.gz"

/-- The observable events of `cli_main`'s transfer phase: a write of the
master manifest, and a part reaching VERIFIED (the `"Part i uploaded and
verified."` line after `verify_upload` returns). -/
inductive Event where
  | masterWrite (m : MasterManifest)
  | partVerified (i : Nat)
deriving DecidableEq, Repr

/-- The initial `parts_info` of `cli_main` (lines 117–121): 1-based ids,
destination from the interactive prompt (`destOf`), totals from the part,
no transfer artifacts yet. -/
def initParts (parts : List (List FileDesc)) (destOf : Nat → String) : List PartInfo :=
  (List.range parts.length).map fun k =>
    ⟨k + 1, destOf (k + 1), binSize (parts.getD k []), (parts.getD k []).length, none, none⟩

/-- `dest_info.update({'tar_file': ..., 'manifest': ...})` (line 132):
fill in the artifacts of the entry whose `part_id` is `i` (ids are unique
by construction, so updating every match is the in-place dict update). -/
def markDone (info : List PartInfo) (i : Nat) (tar manifest : String) : List PartInfo :=
  info.map fun p =>
    if p.part_id = i then
      ⟨p.part_id, p.destination, p.total_size, p.file_count, some tar, some manifest⟩
    else p

/-- The per-part loop of `cli_main` (lines 125–136) over the remaining
part ids: archive, hash (`shaOf` is the `compute_sha256` oracle on the tar
path), write the part manifest, update `parts_info` in memory, transfer,
then verify against the remote digest oracle `remoteShaOf`.  A failed
verification raises, so the loop stops and reports `false` (the final
master write at line 138 is never reached). -/
def pipelineLoop (name : String) (shaOf remoteShaOf : String → String) :
    List Nat → List PartInfo → List Event × List PartInfo × Bool
  | [], info => ([], info, true)
  | i :: rest, info =>
    let tar := tarName name i
    let info2 := markDone info i tar (tar ++ ".json")
    match verify_upload tar (remoteShaOf tar) (shaOf tar) with
    | .ok _ =>
      let r := pipelineLoop name shaOf remoteShaOf rest info2
      (Event.partVerified i :: r.1, r.2.1, r.2.2)
    | .error _ => ([], info2, false)

/-- The master-manifest writes and VERIFIED events of one `cli_main` run
over already-partitioned `parts` (lines 117–139), in program order: one
write before the loop, the loop itself, and — only when every part
verified — the final write of the updated `parts_info`. -/
def cli_main_trace (name source_dir : String) (parts : List (List FileDesc))
    (destOf : Nat → String) (shaOf remoteShaOf : String → String) : List Event :=
  let info0 := initParts parts destOf
  let r := pipelineLoop name shaOf remoteShaOf (List.range' 1 parts.length) info0
  Event.masterWrite (update_master_manifest_record name source_dir info0) ::
    r.1 ++
      (if r.2.2 then [Event.masterWrite (update_master_manifest_record name source_dir r.2.1)]
       else [])

/-- The master-manifest records written during a trace, in order. -/
def writesOf (tr : List Event) : List MasterManifest :=
  tr.filterMap fun e =>
    match e with
    | .masterWrite m => some m
    | .partVerified _ => none

/-! ## Notions used by the statements below -/

/-- A bin is within the ceiling, or is an oversize singleton. -/
def goodBin (max_size : Nat) (b : List FileDesc) : Prop :=
  binSize b ≤ max_size ∨ ∃ f, b = [f] ∧ max_size < f.sz

/-- `f` only ever occupies singleton bins. -/
def aloneIn (f : FileDesc) (bins : List (List FileDesc)) : Prop :=
  ∀ b ∈ bins, f ∈ b → b = [f]

/-- `markDone` applied to a single entry, with the artifact names the loop
derives from the entry's own part id. -/
def markOne (name : String) (p : PartInfo) : PartInfo :=
  ⟨p.part_id, p.destination, p.total_size, p.file_count,
    some (tarName name p.part_id), some (tarName name p.part_id ++ ".json")⟩

/-- The cumulative effect of the loop's `dict.update` calls for the part
ids in `is`. -/
def markAll (name : String) (is : List Nat) (info : List PartInfo) : List PartInfo :=
  is.foldl (fun inf i => markDone inf i (tarName name i) (tarName name i ++ ".json")) info

/-! ## Lemmas about the partitioner -/

@[simp]
theorem binSize_nil : binSize [] = 0 := rfl

@[simp]
theorem binSize_append (a b : List FileDesc) : binSize (a ++ b) = binSize a + binSize b := by
  simp [binSize]

@[simp]
theorem binSize_singleton (f : FileDesc) : binSize [f] = f.sz := by
  simp [binSize]

theorem tryPlace_some_good {max_size : Nat} {f : FileDesc} :
    ∀ {bins bins2 : List (List FileDesc)}, tryPlace max_size f bins = some bins2 →
      (∀ b ∈ bins, goodBin max_size b) → ∀ b ∈ bins2, goodBin max_size b := by
  intro bins
  induction bins with
  | nil => intro bins2 h; simp [tryPlace] at h
  | cons b bs ih =>
    intro bins2 h hg
    by_cases hle : binSize b + f.sz ≤ max_size
    · simp only [tryPlace, if_pos hle] at h
      cases h
      intro c hc
      rcases List.mem_cons.mp hc with hc | hc
      · subst hc; exact Or.inl (by simpa using hle)
      · exact hg c (List.mem_cons_of_mem _ hc)
    · simp only [tryPlace, if_neg hle] at h
      cases htp : tryPlace max_size f bs with
      | none => rw [htp] at h; cases h
      | some bs2 =>
        rw [htp] at h
        cases h
        intro c hc
        rcases List.mem_cons.mp hc with hc | hc
        · subst hc; exact hg c (List.mem_cons_self _ _)
        · exact ih htp (fun d hd => hg d (List.mem_cons_of_mem _ hd)) c hc

theorem split_files_aux_good {max_size : Nat} :
    ∀ (fs : List FileDesc) (bins : List (List FileDesc)) (warns : List FileDesc),
      (∀ b ∈ bins, goodBin max_size b) →
      ∀ b ∈ (split_files_aux max_size fs bins warns).1, goodBin max_size b := by
  intro fs
  induction fs with
  | nil => intro bins warns hg; simpa [split_files_aux] using hg
  | cons f rest ih =>
    intro bins warns hg
    simp only [split_files_aux]
    cases htp : tryPlace max_size f bins with
    | some bins2 => exact ih bins2 warns (tryPlace_some_good htp hg)
    | none =>
      refine ih (bins ++ [[f]]) _ ?_
      intro b hb
      rcases List.mem_append.mp hb with hb | hb
      · exact hg b hb
      · have hb : b = [f] := by simpa using hb
        subst hb
        by_cases hsz : f.sz ≤ max_size
        · exact Or.inl (by simpa using hsz)
        · exact Or.inr ⟨f, rfl, Nat.lt_of_not_le hsz⟩

theorem tryPlace_some_join_perm {max_size : Nat} {f : FileDesc} :
    ∀ {bins bins2 : List (List FileDesc)}, tryPlace max_size f bins = some bins2 →
      List.Perm bins2.flatten (f :: bins.flatten) := by
  intro bins
  induction bins with
  | nil => intro bins2 h; simp [tryPlace] at h
  | cons b bs ih =>
    intro bins2 h
    by_cases hle : binSize b + f.sz ≤ max_size
    · simp only [tryPlace, if_pos hle] at h
      cases h
      simp only [List.flatten_cons, List.append_assoc, List.singleton_append]
      exact List.perm_middle
    · simp only [tryPlace, if_neg hle] at h
      cases htp : tryPlace max_size f bs with
      | none => rw [htp] at h; cases h
      | some bs2 =>
        rw [htp] at h
        cases h
        simp only [List.flatten_cons]
        exact ((ih htp).append_left b).trans List.perm_middle

theorem split_files_aux_join_perm {max_size : Nat} :
    ∀ (fs : List FileDesc) (bins : List (List FileDesc)) (warns : List FileDesc),
      List.Perm ((split_files_aux max_size fs bins warns).1).flatten (bins.flatten ++ fs) := by
  intro fs
  induction fs with
  | nil => intro bins warns; simp [split_files_aux]
  | cons f rest ih =>
    intro bins warns
    simp only [split_files_aux]
    cases htp : tryPlace max_size f bins with
    | some bins2 =>
      refine ((ih bins2 warns).trans ?_)
      exact ((tryPlace_some_join_perm htp).append_right rest).trans List.perm_middle.symm
    | none =>
      refine ((ih _ _).trans ?_)
      simp

/-- The concatenation of the bins produced by `split_files` is a
permutation of the input list. -/
theorem split_files_join_perm (files_list : List FileDesc) (max_size : Nat) :
    List.Perm (split_files files_list max_size).flatten files_list := by
  have h1 := @split_files_aux_join_perm max_size (sortDesc files_list) [] []
  simp only [List.flatten_nil, List.nil_append] at h1
  exact h1.trans (List.perm_insertionSort sizeGE files_list)

/-! ### Oversize files -/

theorem tryPlace_oversize_none {max_size : Nat} {f : FileDesc} (hf : max_size < f.sz) :
    ∀ bins : List (List FileDesc), tryPlace max_size f bins = none := by
  intro bins
  induction bins with
  | nil => rfl
  | cons b bs ih =>
    have hle : ¬ binSize b + f.sz ≤ max_size := by omega
    simp only [tryPlace, if_neg hle, ih]

theorem tryPlace_some_alone {max_size : Nat} {f g : FileDesc} (hf : max_size < f.sz) :
    ∀ {bins bins2 : List (List FileDesc)}, tryPlace max_size g bins = some bins2 →
      aloneIn f bins → aloneIn f bins2 := by
  intro bins
  induction bins with
  | nil => intro bins2 h; simp [tryPlace] at h
  | cons b bs ih =>
    intro bins2 h ha
    by_cases hle : binSize b + g.sz ≤ max_size
    · simp only [tryPlace, if_pos hle] at h
      cases h
      intro c hc hfc
      rcases List.mem_cons.mp hc with hc | hc
      · subst hc
        rcases List.mem_append.mp hfc with hfb | hfg
        · have hb : b = [f] := ha b (List.mem_cons_self _ _) hfb
          rw [hb] at hle
          simp only [binSize_singleton] at hle
          omega
        · have hgf : f = g := by simpa using hfg
          subst hgf
          omega
      · exact ha c (List.mem_cons_of_mem _ hc) hfc
    · simp only [tryPlace, if_neg hle] at h
      cases htp : tryPlace max_size g bs with
      | none => rw [htp] at h; cases h
      | some bs2 =>
        rw [htp] at h
        cases h
        intro c hc hfc
        rcases List.mem_cons.mp hc with hc | hc
        · subst hc; exact ha c (List.mem_cons_self _ _) hfc
        · exact ih htp (fun d hd => ha d (List.mem_cons_of_mem _ hd)) c hc hfc

theorem split_files_aux_alone {max_size : Nat} {f : FileDesc} (hf : max_size < f.sz) :
    ∀ (fs : List FileDesc) (bins : List (List FileDesc)) (warns : List FileDesc),
      aloneIn f bins → aloneIn f (split_files_aux max_size fs bins warns).1 := by
  intro fs
  induction fs with
  | nil => intro bins warns ha; simpa [split_files_aux] using ha
  | cons g rest ih =>
    intro bins warns ha
    simp only [split_files_aux]
    cases htp : tryPlace max_size g bins with
    | some bins2 => exact ih bins2 warns (tryPlace_some_alone hf htp ha)
    | none =>
      refine ih _ _ ?_
      intro b hb hfb
      rcases List.mem_append.mp hb with hb | hb
      · exact ha b hb hfb
      · have hb : b = [g] := by simpa using hb
        subst hb
        have : f = g := by simpa using hfb
        rw [this]

theorem split_files_aux_warns_mono {max_size : Nat} {f : FileDesc} :
    ∀ (fs : List FileDesc) (bins : List (List FileDesc)) (warns : List FileDesc),
      f ∈ warns → f ∈ (split_files_aux max_size fs bins warns).2 := by
  intro fs
  induction fs with
  | nil => intro bins warns h; simpa [split_files_aux] using h
  | cons g rest ih =>
    intro bins warns h
    simp only [split_files_aux]
    cases htp : tryPlace max_size g bins with
    | some bins2 => exact ih bins2 warns h
    | none =>
      refine ih _ _ ?_
      by_cases hg : max_size < g.sz
      · simp only [if_pos hg]
        exact List.mem_append_left _ h
      · simpa [if_neg hg] using h

theorem split_files_aux_warned {max_size : Nat} {f : FileDesc} (hf : max_size < f.sz) :
    ∀ (fs : List FileDesc) (bins : List (List FileDesc)) (warns : List FileDesc),
      f ∈ fs → f ∈ (split_files_aux max_size fs bins warns).2 := by
  intro fs
  induction fs with
  | nil => intro bins warns h; cases h
  | cons g rest ih =>
    intro bins warns h
    rcases List.mem_cons.mp h with h | h
    · subst h
      simp only [split_files_aux, tryPlace_oversize_none hf, if_pos hf]
      exact split_files_aux_warns_mono rest _ _ (List.mem_append_right _ (by simp))
    · simp only [split_files_aux]
      cases htp : tryPlace max_size g bins with
      | some bins2 => exact ih bins2 warns h
      | none => exact ih _ _ h

/-! ### Stability of the descending sort -/

theorem filter_orderedInsert_sizeGE (a : FileDesc) (s : Nat) :
    ∀ l : List FileDesc,
      (List.orderedInsert sizeGE a l).filter (fun f => f.sz == s) =
        if a.sz = s then a :: l.filter (fun f => f.sz == s)
        else l.filter (fun f => f.sz == s) := by
  intro l
  induction l with
  | nil =>
    by_cases ha : a.sz = s <;>
      simp [List.orderedInsert, List.filter_cons, ha]
  | cons b t ih =>
    by_cases hr : sizeGE a b
    · rw [List.orderedInsert_of_le sizeGE _ hr]
      by_cases ha : a.sz = s <;>
        simp [List.filter_cons, ha]
    · have hab : a.sz < b.sz := Nat.lt_of_not_le hr
      simp only [List.orderedInsert, if_neg hr]
      by_cases ha : a.sz = s
      · have hb : ¬ b.sz = s := by omega
        simp [List.filter_cons, hb, ih, ha]
      · simp only [List.filter_cons, ih, if_neg ha]

theorem sortDesc_stable (s : Nat) :
    ∀ files_list : List FileDesc,
      (sortDesc files_list).filter (fun f => f.sz == s) =
        files_list.filter (fun f => f.sz == s) := by
  intro files_list
  induction files_list with
  | nil => rfl
  | cons a l ih =>
    show (List.orderedInsert sizeGE a (List.insertionSort sizeGE l)).filter _ = _
    rw [filter_orderedInsert_sizeGE]
    by_cases ha : a.sz = s
    · simp only [if_pos ha]
      rw [show List.insertionSort sizeGE l = sortDesc l from rfl, ih]
      simp [List.filter_cons, ha]
    · simp only [if_neg ha]
      rw [show List.insertionSort sizeGE l = sortDesc l from rfl, ih]
      simp [List.filter_cons, ha]

/-! ### `split_files` agrees with the specification's wording of FFD -/

theorem specPlace_eq_tryPlace (max_size : Nat) (f : FileDesc) :
    ∀ bins : List (List FileDesc),
      specPlace max_size f bins =
        (match tryPlace max_size f bins with
          | some bins2 => bins2
          | none => bins ++ [[f]]) := by
  intro bins
  induction bins with
  | nil => rfl
  | cons b bs ih =>
    by_cases hle : binSize b + f.sz ≤ max_size
    · have hle2 : (b.map (fun g => g.sz)).sum + f.sz ≤ max_size := hle
      simp only [specPlace, tryPlace, if_pos hle2, if_pos hle]
    · have hle2 : ¬ (b.map (fun g => g.sz)).sum + f.sz ≤ max_size := hle
      simp only [specPlace, tryPlace, if_neg hle2, if_neg hle, ih]
      cases htp : tryPlace max_size f bs <;> simp [htp]

theorem ffdLoop_eq_aux (max_size : Nat) :
    ∀ (fs : List FileDesc) (bins : List (List FileDesc)) (warns : List FileDesc),
      ffdLoop max_size fs bins = (split_files_aux max_size fs bins warns).1 := by
  intro fs
  induction fs with
  | nil => intro bins warns; rfl
  | cons f rest ih =>
    intro bins warns
    simp only [ffdLoop, split_files_aux, specPlace_eq_tryPlace]
    cases htp : tryPlace max_size f bins with
    | some bins2 => simp only [htp]; exact ih bins2 warns
    | none => simp only [htp]; exact ih _ _

/-! ### The two size computations of the inventory builder agree -/

theorem collect_sizes_agree (es : List FSEntry) :
    ∀ base rel : String,
      ((collect_files_from base rel es).map (fun f => f.sz)).sum = get_dir_size es :=
  match es with
  | [] => by
    intro base rel
    simp [collect_files_from, filesAt, collect_subdirs, get_dir_size]
  | .file n sz :: rest => by
    intro base rel
    have ih := collect_sizes_agree rest base rel
    simp only [collect_files_from, filesAt, List.filterMap_cons, collect_subdirs,
      List.map_append, List.sum_append, List.map_cons, List.sum_cons, get_dir_size] at ih ⊢
    omega
  | .dir n sub :: rest => by
    intro base rel
    have ih1 := collect_sizes_agree sub base (joinPath rel n)
    have ih2 := collect_sizes_agree rest base rel
    simp only [collect_files_from, filesAt, List.filterMap_cons, collect_subdirs,
      List.map_append, List.sum_append, List.map_cons, List.sum_cons, get_dir_size] at ih1 ih2 ⊢
    omega

/-! ## The claims -/

/-- C10: for every source tree, the recursive total-size query
(`get_dir_size`) returns the same value as summing the sizes in the full
file listing produced by the traversal (`collect_files`). -/
theorem C10_total_size_agrees_with_listing (base : String) (es : List FSEntry) :
    get_dir_size es = ((collect_files base es).map (fun f => f.sz)).sum :=
  (collect_sizes_agree es base "").symm

/-- C1: whenever the precomputed total size of the inventory is at most
the 150 GiB ceiling (equality included), `cli_main`'s partition step skips
the bin packer and returns a single part holding the whole traversal-order
listing. -/
theorem C1_fast_path_single_part (base : String) (es : List FSEntry)
    (h : get_dir_size es ≤ 150 * 1024 ^ 3) :
    cli_partition base es = [collect_files base es] := by
  simp only [cli_partition, if_pos h]

/-- Witness for C1, with the total size exactly equal to the ceiling and
the traversal order not size-sorted. -/
theorem C1_fast_path_single_part_witness :
    get_dir_size [FSEntry.file "small" 1, FSEntry.file "big" (150 * 1024 ^ 3 - 1)]
        ≤ 150 * 1024 ^ 3 ∧
    cli_partition "/src" [FSEntry.file "small" 1, FSEntry.file "big" (150 * 1024 ^ 3 - 1)] =
      [collect_files "/src" [FSEntry.file "small" 1, FSEntry.file "big" (150 * 1024 ^ 3 - 1)]] :=
  ⟨by norm_num [get_dir_size], C1_fast_path_single_part "/src" _ (by norm_num [get_dir_size])⟩

/-- C2: every part produced by `split_files` respects the ceiling, except
possibly a part holding exactly one file that alone exceeds it. -/
theorem C2_part_ceiling_invariant (files_list : List FileDesc) (max_size : Nat)
    (b : List FileDesc) (hb : b ∈ split_files files_list max_size) :
    binSize b ≤ max_size ∨ ∃ f, b = [f] ∧ max_size < f.sz :=
  split_files_aux_good (sortDesc files_list) [] [] (by intro c hc; cases hc) b hb

/-- Witness for C2 at a one-file input under the ceiling. -/
theorem C2_part_ceiling_invariant_witness :
    ([(⟨"a", "/s/a", 5⟩ : FileDesc)]) ∈ split_files [⟨"a", "/s/a", 5⟩] 10 ∧
    (binSize [(⟨"a", "/s/a", 5⟩ : FileDesc)] ≤ 10 ∨
      ∃ f, ([(⟨"a", "/s/a", 5⟩ : FileDesc)]) = [f] ∧ 10 < f.sz) :=
  ⟨by decide, C2_part_ceiling_invariant [⟨"a", "/s/a", 5⟩] 10 _ (by decide)⟩

/-- C3: `split_files` is exactly first-fit decreasing as the spec words
it: it equals the spec-worded algorithm (`ffd_spec`), the processed order
is sorted descending by size, the tie-break is stable (each equal-size
class keeps its original relative order), and the 100/90/20 GiB scenario
with a 150 GiB ceiling yields the parts {100, 20} and {90}. -/
theorem C3_first_fit_decreasing_exact :
    (∀ (files_list : List FileDesc) (max_size : Nat),
        split_files files_list max_size = ffd_spec files_list max_size) ∧
    (∀ files_list : List FileDesc, List.Sorted sizeGE (sortDesc files_list)) ∧
    (∀ (files_list : List FileDesc) (s : Nat),
        (sortDesc files_list).filter (fun f => f.sz == s) =
          files_list.filter (fun f => f.sz == s)) ∧
    split_files
        [⟨"f100", "/r/f100", 100 * 1024 ^ 3⟩, ⟨"f90", "/r/f90", 90 * 1024 ^ 3⟩,
          ⟨"f20", "/r/f20", 20 * 1024 ^ 3⟩] (150 * 1024 ^ 3) =
      [[⟨"f100", "/r/f100", 100 * 1024 ^ 3⟩, ⟨"f20", "/r/f20", 20 * 1024 ^ 3⟩],
        [⟨"f90", "/r/f90", 90 * 1024 ^ 3⟩]] := by
  refine ⟨?_, ?_, ?_, by decide⟩
  · intro files_list max_size
    exact (ffdLoop_eq_aux max_size (sortDesc files_list) [] []).symm
  · intro files_list
    exact List.sorted_insertionSort sizeGE files_list
  · intro files_list s
    exact sortDesc_stable s files_list

/-- C4: the parts returned by `split_files` form a partition of the input
list — their concatenation is a permutation of it, so every input
descriptor lands in exactly one part, unchanged, none lost or
duplicated. -/
theorem C4_parts_partition_input (files_list : List FileDesc) (max_size : Nat) :
    List.Perm (split_files files_list max_size).flatten files_list :=
  split_files_join_perm files_list max_size

/-- C5: an input file strictly above the ceiling ends up in a part, that
part is always the singleton holding just it, the oversize warning is
emitted for it, and `split_files` still returns normally. -/
theorem C5_oversize_alone_and_warned (files_list : List FileDesc) (max_size : Nat)
    (f : FileDesc) (hmem : f ∈ files_list) (hsz : max_size < f.sz) :
    (∃ b ∈ split_files files_list max_size, f ∈ b) ∧
    (∀ b ∈ split_files files_list max_size, f ∈ b → b = [f]) ∧
    f ∈ split_warnings files_list max_size := by
  refine ⟨?_, ?_, ?_⟩
  · have hjoin : f ∈ (split_files files_list max_size).flatten :=
      (split_files_join_perm files_list max_size).mem_iff.mpr hmem
    simpa using List.mem_flatten.mp hjoin
  · exact split_files_aux_alone hsz (sortDesc files_list) [] [] (by intro c hc; cases hc)
  · exact split_files_aux_warned hsz (sortDesc files_list) [] []
      ((List.perm_insertionSort sizeGE files_list).mem_iff.mpr hmem)

/-- Witness for C5: a 200 GiB file against the 150 GiB ceiling. -/
theorem C5_oversize_alone_and_warned_witness :
    (⟨"big", "/s/big", 200 * 1024 ^ 3⟩ : FileDesc) ∈
        [(⟨"big", "/s/big", 200 * 1024 ^ 3⟩ : FileDesc)] ∧
    150 * 1024 ^ 3 < (⟨"big", "/s/big", 200 * 1024 ^ 3⟩ : FileDesc).sz ∧
    ((∃ b ∈ split_files [(⟨"big", "/s/big", 200 * 1024 ^ 3⟩ : FileDesc)] (150 * 1024 ^ 3),
        (⟨"big", "/s/big", 200 * 1024 ^ 3⟩ : FileDesc) ∈ b) ∧
      (∀ b ∈ split_files [(⟨"big", "/s/big", 200 * 1024 ^ 3⟩ : FileDesc)] (150 * 1024 ^ 3),
        (⟨"big", "/s/big", 200 * 1024 ^ 3⟩ : FileDesc) ∈ b → b = [⟨"big", "/s/big", 200 * 1024 ^ 3⟩]) ∧
      (⟨"big", "/s/big", 200 * 1024 ^ 3⟩ : FileDesc) ∈
        split_warnings [(⟨"big", "/s/big", 200 * 1024 ^ 3⟩ : FileDesc)] (150 * 1024 ^ 3)) :=
  ⟨by decide, by decide,
    C5_oversize_alone_and_warned [⟨"big", "/s/big", 200 * 1024 ^ 3⟩] (150 * 1024 ^ 3)
      ⟨"big", "/s/big", 200 * 1024 ^ 3⟩ (by decide) (by decide)⟩

/-- C7: the master-manifest builder recomputes `total_size`/`total_files`
as sums over the `parts_info` passed in; the write fully replaces the
record keyed by `upload_name`; writing twice with the same name and
different `parts_info` succeeds with the last write winning, never
touching any other key, and the written record is independent of whatever
was stored before. -/
theorem C7_master_manifest_overwrite (store : String → Option MasterManifest)
    (name src : String) (pi1 pi2 : List PartInfo) :
    (update_master_manifest_record name src pi2).total_size =
        (pi2.map (fun p => p.total_size)).sum ∧
    (update_master_manifest_record name src pi2).total_files =
        (pi2.map (fun p => p.file_count)).sum ∧
    writeMaster (writeMaster store name src pi1) name src pi2 (masterPath name) =
        some (update_master_manifest_record name src pi2) ∧
    (∀ store2 : String → Option MasterManifest,
        writeMaster store name src pi2 (masterPath name) =
          writeMaster store2 name src pi2 (masterPath name)) ∧
    (∀ p, p ≠ masterPath name →
        writeMaster (writeMaster store name src pi1) name src pi2 p = store p) := by
  refine ⟨rfl, rfl, by simp [writeMaster], ?_, ?_⟩
  · intro store2; simp [writeMaster]
  · intro p hp; simp [writeMaster, hp]

/-- Witness for C7: two writes under the name `u` with different parts
lists; the stored record reflects only the second, other keys are
untouched. -/
theorem C7_master_manifest_overwrite_witness :
    writeMaster
        (writeMaster (fun _ => none) "u" "/s" [⟨1, "h:/d1", 5, 2, none, none⟩])
        "u" "/s" [⟨1, "h:/d1", 5, 2, none, none⟩, ⟨2, "h:/d2", 7, 3, none, none⟩]
        (masterPath "u") =
      some (update_master_manifest_record "u" "/s"
        [⟨1, "h:/d1", 5, 2, none, none⟩, ⟨2, "h:/d2", 7, 3, none, none⟩]) ∧
    writeMaster
        (writeMaster (fun _ => none) "u" "/s" [⟨1, "h:/d1", 5, 2, none, none⟩])
        "u" "/s" [⟨1, "h:/d1", 5, 2, none, none⟩, ⟨2, "h:/d2", 7, 3, none, none⟩]
        "other_master.json" = none :=
  ⟨(C7_master_manifest_overwrite (fun _ => none) "u" "/s"
      [⟨1, "h:/d1", 5, 2, none, none⟩]
      [⟨1, "h:/d1", 5, 2, none, none⟩, ⟨2, "h:/d2", 7, 3, none, none⟩]).2.2.1,
    (C7_master_manifest_overwrite (fun _ => none) "u" "/s"
      [⟨1, "h:/d1", 5, 2, none, none⟩]
      [⟨1, "h:/d1", 5, 2, none, none⟩, ⟨2, "h:/d2", 7, 3, none, none⟩]).2.2.2.2
      "other_master.json" (by decide)⟩

/-- A VERIFIED event for part `i` is only ever emitted when the remote
digest of part `i`'s archive equals the locally computed one. -/
theorem pipelineLoop_verified_mem {name : String} {shaOf remoteShaOf : String → String}
    {i : Nat} :
    ∀ (is : List Nat) (info : List PartInfo),
      Event.partVerified i ∈ (pipelineLoop name shaOf remoteShaOf is info).1 →
      remoteShaOf (tarName name i) = shaOf (tarName name i) := by
  intro is
  induction is with
  | nil => intro info h; cases h
  | cons j rest ih =>
    intro info h
    simp only [pipelineLoop] at h
    by_cases hv : remoteShaOf (tarName name j) = shaOf (tarName name j)
    · rw [show verify_upload (tarName name j) (remoteShaOf (tarName name j))
          (shaOf (tarName name j)) = .ok () by simp [verify_upload, hv]] at h
      simp only at h
      rcases List.mem_cons.mp h with h | h
      · cases h; exact hv
      · exact ih _ h
    · rw [show verify_upload (tarName name j) (remoteShaOf (tarName name j))
          (shaOf (tarName name j)) =
            .error (.verificationFailed (tarName name j) (remoteShaOf (tarName name j))
              (shaOf (tarName name j))) by simp [verify_upload, hv]] at h
      simp only at h
      cases h

/-- C9: verification is exact hex-string equality of the remote digest
against the local `content_sha256` — equal digests succeed, any difference
raises the integrity `ValueError` (a distinct shape from a subprocess
transport failure), and a part whose digests differ never reaches a
VERIFIED event in any run. -/
theorem C9_verify_exact_equality (tar_name remote_sha sha256 : String) :
    (remote_sha = sha256 → verify_upload tar_name remote_sha sha256 = .ok ()) ∧
    (remote_sha ≠ sha256 →
      verify_upload tar_name remote_sha sha256 =
        .error (.verificationFailed tar_name remote_sha sha256)) ∧
    (∀ c, verify_upload tar_name remote_sha sha256 ≠ .error (.subprocessError c)) ∧
    (∀ (name source_dir : String) (parts : List (List FileDesc)) (destOf : Nat → String)
        (shaOf remoteShaOf : String → String) (i : Nat),
      remoteShaOf (tarName name i) ≠ shaOf (tarName name i) →
      Event.partVerified i ∉ cli_main_trace name source_dir parts destOf shaOf remoteShaOf) := by
  refine ⟨fun h => by simp [verify_upload, h], fun h => by simp [verify_upload, h], ?_, ?_⟩
  · intro c
    by_cases h : remote_sha = sha256 <;> simp [verify_upload, h]
  · intro name source_dir parts destOf shaOf remoteShaOf i hne hmem
    unfold cli_main_trace at hmem
    rcases List.mem_cons.mp hmem with h | h
    · simp at h
    · rcases List.mem_append.mp h with h2 | h2
      · exact hne (pipelineLoop_verified_mem _ _ h2)
      · by_cases hdone : (pipelineLoop name shaOf remoteShaOf
            (List.range' 1 parts.length) (initParts parts destOf)).2.2 <;>
          simp [hdone] at h2

/-- Witness for C9: digests differing in one character fail with the
integrity error; equal digests succeed; a mismatching part is absent from
a concrete run's trace. -/
theorem C9_verify_exact_equality_witness :
    verify_upload "u_part1.tar.gz" "aa" "ab" =
        .error (.verificationFailed "u_part1.tar.gz" "aa" "ab") ∧
    verify_upload "u_part1.tar.gz" "aa" "aa" = .ok () ∧
    Event.partVerified 1 ∉
      cli_main_trace "u" "/s" [[⟨"a", "/s/a", 3⟩]] (fun _ => "h:/d")
        (fun _ => "aa") (fun _ => "ab") :=
  ⟨(C9_verify_exact_equality "u_part1.tar.gz" "aa" "ab").2.1 (by decide),
    (C9_verify_exact_equality "u_part1.tar.gz" "aa" "aa").1 rfl,
    (C9_verify_exact_equality "u_part1.tar.gz" "aa" "ab").2.2.2
      "u" "/s" [[⟨"a", "/s/a", 3⟩]] (fun _ => "h:/d") (fun _ => "aa") (fun _ => "ab") 1
      (by decide)⟩

/-! ### The shape of the master-manifest writes in a run -/

theorem pipelineLoop_events_no_write {name : String} {shaOf remoteShaOf : String → String} :
    ∀ (is : List Nat) (info : List PartInfo),
      writesOf (pipelineLoop name shaOf remoteShaOf is info).1 = [] := by
  intro is
  induction is with
  | nil => intro info; rfl
  | cons j rest ih =>
    intro info
    simp only [pipelineLoop]
    cases hv : verify_upload (tarName name j) (remoteShaOf (tarName name j))
        (shaOf (tarName name j)) with
    | ok u => simp only [writesOf, List.filterMap_cons] at ih ⊢; exact ih _
    | error e => rfl

theorem pipelineLoop_all_ok {name : String} {shaOf remoteShaOf : String → String} :
    ∀ (is : List Nat) (info : List PartInfo),
      (∀ i ∈ is, remoteShaOf (tarName name i) = shaOf (tarName name i)) →
      pipelineLoop name shaOf remoteShaOf is info =
        (is.map Event.partVerified, markAll name is info, true) := by
  intro is
  induction is with
  | nil => intro info _; rfl
  | cons j rest ih =>
    intro info hok
    have hj : remoteShaOf (tarName name j) = shaOf (tarName name j) :=
      hok j (List.mem_cons_self _ _)
    have hv : verify_upload (tarName name j) (remoteShaOf (tarName name j))
        (shaOf (tarName name j)) = .ok () := by simp [verify_upload, hj]
    simp only [pipelineLoop, hv]
    rw [ih _ (fun i hi => hok i (List.mem_cons_of_mem _ hi))]
    rfl

theorem pipelineLoop_done_all_ok {name : String} {shaOf remoteShaOf : String → String} :
    ∀ (is : List Nat) (info : List PartInfo),
      (pipelineLoop name shaOf remoteShaOf is info).2.2 = true →
      ∀ i ∈ is, remoteShaOf (tarName name i) = shaOf (tarName name i) := by
  intro is
  induction is with
  | nil => intro info _ i hi; cases hi
  | cons j rest ih =>
    intro info hdone i hi
    by_cases hj : remoteShaOf (tarName name j) = shaOf (tarName name j)
    · have hv : verify_upload (tarName name j) (remoteShaOf (tarName name j))
          (shaOf (tarName name j)) = .ok () := by simp [verify_upload, hj]
      simp only [pipelineLoop, hv] at hdone
      rcases List.mem_cons.mp hi with hi | hi
      · subst hi; exact hj
      · exact ih _ hdone i hi
    · have hv : verify_upload (tarName name j) (remoteShaOf (tarName name j))
          (shaOf (tarName name j)) =
            .error (.verificationFailed (tarName name j) (remoteShaOf (tarName name j))
              (shaOf (tarName name j))) := by simp [verify_upload, hj]
      simp only [pipelineLoop, hv] at hdone
      cases hdone

theorem markDone_eq_map (info : List PartInfo) (name : String) (i : Nat) :
    markDone info i (tarName name i) (tarName name i ++ ".json") =
      info.map (fun p => if p.part_id = i then markOne name p else p) := by
  unfold markDone
  refine List.map_congr_left ?_
  intro p _
  by_cases hp : p.part_id = i
  · simp only [if_pos hp, markOne, hp]
  · simp only [if_neg hp]

theorem markAll_eq_map (name : String) :
    ∀ (is : List Nat) (info : List PartInfo),
      markAll name is info = info.map (fun p => if p.part_id ∈ is then markOne name p else p) := by
  intro is
  induction is with
  | nil =>
    intro info
    simp [markAll]
  | cons j rest ih =>
    intro info
    show markAll name rest (markDone info j (tarName name j) (tarName name j ++ ".json")) = _
    rw [markDone_eq_map, ih, List.map_map]
    refine List.map_congr_left ?_
    intro p _
    by_cases hp : p.part_id = j
    · have hmem : p.part_id ∈ j :: rest := by simp [hp]
      simp only [Function.comp, if_pos hp, if_pos hmem, markOne]
      split <;> rfl
    · simp only [Function.comp, if_neg hp]
      by_cases hr : p.part_id ∈ rest
      · have hmem : p.part_id ∈ j :: rest := List.mem_cons_of_mem _ hr
        simp only [if_pos hr, if_pos hmem]
      · have hmem : p.part_id ∉ j :: rest := by
          intro h; rcases List.mem_cons.mp h with h | h
          · exact hp h
          · exact hr h
        simp only [if_neg hr, if_neg hmem]

theorem initParts_mem_id (parts : List (List FileDesc)) (destOf : Nat → String) :
    ∀ p ∈ initParts parts destOf,
      p.part_id ∈ List.range' 1 parts.length ∧ p.tar_file = none ∧ p.manifest = none := by
  intro p hp
  simp only [initParts, List.mem_map, List.mem_range] at hp
  obtain ⟨k, hk, rfl⟩ := hp
  refine ⟨?_, rfl, rfl⟩
  simp only [List.mem_range']
  exact ⟨k, hk, by omega⟩

/-- C8 as stated is false on the code: in a two-part run where both parts
verify, the trace up to and including part 1's VERIFIED event contains
exactly one master-manifest write — the initial one, in which no part has
`tar_file` or `manifest` filled in.  So after `k = 1` completed parts the
on-disk master manifest does not record that part 1 completed. -/
theorem C8_counterexample :
    (cli_main_trace "u" "/s" [[⟨"a", "/s/a", 3⟩], [⟨"b", "/s/b", 4⟩]] (fun _ => "h:/d")
          (fun _ => "h") (fun _ => "h")).take 2 =
      [Event.masterWrite (update_master_manifest_record "u" "/s"
          [⟨1, "h:/d", 3, 1, none, none⟩, ⟨2, "h:/d", 4, 1, none, none⟩]),
        Event.partVerified 1] ∧
    writesOf ((cli_main_trace "u" "/s" [[⟨"a", "/s/a", 3⟩], [⟨"b", "/s/b", 4⟩]]
          (fun _ => "h:/d") (fun _ => "h") (fun _ => "h")).take 2) =
      [update_master_manifest_record "u" "/s"
        [⟨1, "h:/d", 3, 1, none, none⟩, ⟨2, "h:/d", 4, 1, none, none⟩]] ∧
    (∀ p ∈ [(⟨1, "h:/d", 3, 1, none, none⟩ : PartInfo), ⟨2, "h:/d", 4, 1, none, none⟩],
      p.tar_file = none ∧ p.manifest = none) := by
  refine ⟨by decide, by decide, by decide⟩

/-- C8 amended: `cli_main` writes the master manifest exactly twice — once
before any part's pipeline runs, with every part's `tar_file` and
`manifest` absent, and once after the loop, only reached when every part
verified, with every part's artifacts filled in.  No intermediate rewrite
happens when an individual part reaches VERIFIED, and if any part fails
the initial record remains the last write. -/
theorem C8_master_writes_amended (name source_dir : String) (parts : List (List FileDesc))
    (destOf : Nat → String) (shaOf remoteShaOf : String → String) :
    (∀ p ∈ initParts parts destOf, p.tar_file = none ∧ p.manifest = none) ∧
    ((∀ i ∈ List.range' 1 parts.length,
        remoteShaOf (tarName name i) = shaOf (tarName name i)) →
      writesOf (cli_main_trace name source_dir parts destOf shaOf remoteShaOf) =
        [update_master_manifest_record name source_dir (initParts parts destOf),
          update_master_manifest_record name source_dir
            (markAll name (List.range' 1 parts.length) (initParts parts destOf))] ∧
      ∀ p ∈ markAll name (List.range' 1 parts.length) (initParts parts destOf),
        p.tar_file = some (tarName name p.part_id) ∧
          p.manifest = some (tarName name p.part_id ++ ".json")) ∧
    ((¬ ∀ i ∈ List.range' 1 parts.length,
        remoteShaOf (tarName name i) = shaOf (tarName name i)) →
      writesOf (cli_main_trace name source_dir parts destOf shaOf remoteShaOf) =
        [update_master_manifest_record name source_dir (initParts parts destOf)]) := by
  refine ⟨fun p hp => (initParts_mem_id parts destOf p hp).2, ?_, ?_⟩
  · intro hok
    constructor
    · simp only [cli_main_trace]
      rw [pipelineLoop_all_ok _ _ hok]
      simp [writesOf, List.filterMap_append, List.filterMap_cons, List.filterMap_map]
    · intro p hp
      rw [markAll_eq_map] at hp
      rcases List.mem_map.mp hp with ⟨q, hq, rfl⟩
      have hid := (initParts_mem_id parts destOf q hq).1
      rw [if_pos hid]
      exact ⟨rfl, rfl⟩
  · intro hnot
    have hdone : (pipelineLoop name shaOf remoteShaOf (List.range' 1 parts.length)
        (initParts parts destOf)).2.2 = false := by
      by_contra h
      exact hnot (pipelineLoop_done_all_ok _ _ (by
        cases hb : (pipelineLoop name shaOf remoteShaOf (List.range' 1 parts.length)
            (initParts parts destOf)).2.2
        · exact absurd hb h
        · rfl))
    unfold cli_main_trace
    simp only [writesOf, List.filterMap_cons, List.filterMap_append, hdone]
    have hw := @pipelineLoop_events_no_write name shaOf remoteShaOf
      (List.range' 1 parts.length) (initParts parts destOf)
    simp only [writesOf] at hw
    rw [hw]
    rfl

/-- Witness for the amended C8: a one-part run that verifies produces the
two writes, and the same run with a corrupted remote digest produces only
the initial write. -/
theorem C8_master_writes_amended_witness :
    writesOf (cli_main_trace "u" "/s" [[⟨"a", "/s/a", 3⟩]] (fun _ => "h:/d")
        (fun _ => "h") (fun _ => "h")) =
      [update_master_manifest_record "u" "/s" (initParts [[⟨"a", "/s/a", 3⟩]] (fun _ => "h:/d")),
        update_master_manifest_record "u" "/s"
          (markAll "u" (List.range' 1 1) (initParts [[⟨"a", "/s/a", 3⟩]] (fun _ => "h:/d")))] ∧
    writesOf (cli_main_trace "u" "/s" [[⟨"a", "/s/a", 3⟩]] (fun _ => "h:/d")
        (fun _ => "h") (fun _ => "BAD")) =
      [update_master_manifest_record "u" "/s" (initParts [[⟨"a", "/s/a", 3⟩]] (fun _ => "h:/d"))] :=
  ⟨((C8_master_writes_amended "u" "/s" [[⟨"a", "/s/a", 3⟩]] (fun _ => "h:/d")
      (fun _ => "h") (fun _ => "h")).2.1 (by decide)).1,
    (C8_master_writes_amended "u" "/s" [[⟨"a", "/s/a", 3⟩]] (fun _ => "h:/d")
      (fun _ => "h") (fun _ => "BAD")).2.2 (by decide)⟩

/-! ### `rfind` and `splitext` lemmas -/

theorem rfind_bound {c : Char} :
    ∀ {cs : List Char} {d : Nat}, rfind cs c = some d → d < cs.length := by
  intro cs
  induction cs with
  | nil => intro d h; cases h
  | cons a t ih =>
    intro d h
    simp only [rfind] at h
    cases ht : rfind t c with
    | some j =>
      rw [ht] at h
      cases h
      have := ih ht
      simp only [List.length_cons]
      omega
    | none =>
      rw [ht] at h
      by_cases hac : a = c
      · rw [if_pos hac] at h
        cases h
        simp
      · rw [if_neg hac] at h
        cases h

theorem rfind_append (xs ys : List Char) (c : Char) :
    rfind (xs ++ ys) c =
      match rfind ys c with
      | some j => some (xs.length + j)
      | none => rfind xs c := by
  induction xs with
  | nil =>
    simp only [List.nil_append, List.length_nil]
    cases hy : rfind ys c with
    | some j => simp [hy]
    | none => simp [hy, rfind]
  | cons a xs ih =>
    cases hy : rfind ys c with
    | some j =>
      simp only [hy] at ih
      simp only [List.cons_append, rfind, List.append_eq, ih, List.length_cons]
      exact congrArg some (by omega)
    | none =>
      simp only [hy] at ih
      simp only [List.cons_append, rfind, List.append_eq, ih]

theorem rfind_getElem {c : Char} :
    ∀ {cs : List Char} {d : Nat}, rfind cs c = some d → cs[d]? = some c := by
  intro cs
  induction cs with
  | nil => intro d h; cases h
  | cons a t ih =>
    intro d h
    simp only [rfind] at h
    cases ht : rfind t c with
    | some j =>
      rw [ht] at h
      cases h
      simpa using ih ht
    | none =>
      rw [ht] at h
      by_cases hac : a = c
      · rw [if_pos hac] at h
        cases h
        simp [hac]
      · rw [if_neg hac] at h
        cases h

theorem rfind_all_eq {c : Char} :
    ∀ {xs : List Char}, (∀ x ∈ xs, x = c) → xs ≠ [] → rfind xs c = some (xs.length - 1) := by
  intro xs
  induction xs with
  | nil => intro _ h; exact absurd rfl h
  | cons a t ih =>
    intro hall _
    have hac : a = c := hall a (List.mem_cons_self _ _)
    cases t with
    | nil => simp [rfind, hac]
    | cons b t2 =>
      have ht := ih (fun x hx => hall x (List.mem_cons_of_mem _ hx)) (List.cons_ne_nil _ _)
      show (match rfind (b :: t2) c with
        | some j => some (j + 1)
        | none => if a = c then some 0 else none) = some ((a :: b :: t2).length - 1)
      rw [ht]
      show some ((b :: t2).length - 1 + 1) = some ((a :: b :: t2).length - 1)
      exact congrArg some (by simp only [List.length_cons]; omega)

theorem rfind_none_of_not_mem {c : Char} :
    ∀ {cs : List Char}, c ∉ cs → rfind cs c = none := by
  intro cs
  induction cs with
  | nil => intro _; rfl
  | cons a t ih =>
    intro h
    have hat : c ∉ t := fun hm => h (List.mem_cons_of_mem _ hm)
    have hac : ¬ a = c := fun he => h (by rw [he]; exact List.mem_cons_self _ _)
    simp only [rfind, ih hat, if_neg hac]

theorem dropWhile_head_false {α : Type} {p : α → Bool} :
    ∀ {l : List α} {x : α} {t : List α}, l.dropWhile p = x :: t → p x = false := by
  intro l
  induction l with
  | nil => intro x t h; cases h
  | cons a l ih =>
    intro x t h
    simp only [List.dropWhile] at h
    cases hpa : p a with
    | true => rw [hpa] at h; exact ih h
    | false =>
      rw [hpa] at h
      cases h
      exact hpa

theorem splitext_ext_eq_extOfBasename (cs : List Char) :
    splitext_ext cs = extOfBasename (basenameOf cs) := by
  cases hsep : rfind cs '/' with
  | none =>
    simp only [basenameOf, hsep]
    cases hdot : rfind cs '.' with
    | none => simp only [splitext_ext, hdot, extOfBasename]
    | some d =>
      simp only [splitext_ext, hdot, hsep, extOfBasename, List.drop_zero, Nat.sub_zero]
      by_cases hany : (cs.take d).any (fun ch => ch ≠ '.') = true
      · rw [if_pos ⟨Nat.zero_le d, hany⟩, if_pos hany]
      · rw [if_neg (fun hc => hany hc.2), if_neg hany]
  | some s2 =>
    have hs2 : s2 < cs.length := rfind_bound hsep
    have hlen : (cs.take (s2 + 1)).length = s2 + 1 := by
      simp only [List.length_take]
      omega
    have happ := rfind_append (cs.take (s2 + 1)) (cs.drop (s2 + 1)) '.'
    rw [List.take_append_drop] at happ
    simp only [basenameOf, hsep]
    cases hdotb : rfind (cs.drop (s2 + 1)) '.' with
    | none =>
      rw [hdotb] at happ
      have happ2 : rfind cs '.' = rfind (cs.take (s2 + 1)) '.' := happ
      cases hdott : rfind (cs.take (s2 + 1)) '.' with
      | none =>
        rw [hdott] at happ2
        simp only [splitext_ext, happ2, extOfBasename, hdotb]
      | some i =>
        rw [hdott] at happ2
        have hi : i < s2 + 1 := by
          have hb := rfind_bound hdott
          omega
        simp only [splitext_ext, happ2, hsep, extOfBasename, hdotb]
        rw [if_neg (fun hc => by omega : ¬ (s2 + 1 ≤ i ∧
          ((cs.drop (s2 + 1)).take (i - (s2 + 1))).any (fun ch => ch ≠ '.') = true))]
    | some j =>
      rw [hdotb] at happ
      have happ2 : rfind cs '.' = some ((cs.take (s2 + 1)).length + j) := happ
      rw [hlen] at happ2
      simp only [splitext_ext, happ2, hsep, extOfBasename, hdotb]
      have harith : s2 + 1 + j - (s2 + 1) = j := by omega
      rw [harith]
      have hdrop : cs.drop (s2 + 1 + j) = (cs.drop (s2 + 1)).drop j := by
        rw [List.drop_drop]
      by_cases hany : ((cs.drop (s2 + 1)).take j).any (fun ch => ch ≠ '.') = true
      · rw [if_pos ⟨Nat.le_add_right (s2 + 1) j, hany⟩, if_pos hany, hdrop]
      · rw [if_neg (fun hc => hany hc.2), if_neg hany]

theorem extOfBasename_split (tw dw : List Char) (htw : ∀ x ∈ tw, x = '.')
    (hdwhead : ∀ x t, dw = x :: t → ¬ x = '.') :
    extOfBasename (tw ++ dw) =
      (match rfind dw '.' with
        | none => []
        | some j2 => dw.drop j2) := by
  have happ := rfind_append tw dw '.'
  cases hdw : rfind dw '.' with
  | some j2 =>
    rw [hdw] at happ
    have happ2 : rfind (tw ++ dw) '.' = some (tw.length + j2) := happ
    have hj2 : j2 ≠ 0 := by
      intro h0
      subst h0
      have hg := rfind_getElem hdw
      cases hdwe : dw with
      | nil => rw [hdwe] at hdw; cases hdw
      | cons x t =>
        rw [hdwe] at hg
        simp only [List.getElem?_cons_zero, Option.some.injEq] at hg
        exact hdwhead x t hdwe hg
    simp only [extOfBasename, happ2]
    have hany : ((tw ++ dw).take (tw.length + j2)).any (fun ch => ch ≠ '.') = true := by
      rw [List.take_append, List.any_append, Bool.or_eq_true]
      refine Or.inr ?_
      rw [List.any_eq_true]
      cases hdwe : dw with
      | nil => rw [hdwe] at hdw; cases hdw
      | cons x t =>
        have hx : ¬ x = '.' := hdwhead x t hdwe
        refine ⟨x, ?_, by simpa using hx⟩
        cases j2 with
        | zero => exact absurd rfl hj2
        | succ m => simp
    rw [if_pos hany, List.drop_append]
  | none =>
    rw [hdw] at happ
    have happ2 : rfind (tw ++ dw) '.' = rfind tw '.' := happ
    by_cases htwe : tw = []
    · have hnil : rfind (tw ++ dw) '.' = none := by
        rw [happ2, htwe]
        rfl
      simp only [extOfBasename, hnil]
    · have htwn : rfind tw '.' = some (tw.length - 1) := rfind_all_eq htw htwe
      rw [htwn] at happ2
      simp only [extOfBasename, happ2]
      have hlen1 : 1 ≤ tw.length := List.length_pos.mpr htwe
      have htake : (tw ++ dw).take (tw.length - 1) = tw.take (tw.length - 1) := by
        rw [List.take_append_eq_append_take]
        rw [show tw.length - 1 - tw.length = 0 by omega]
        simp
      have hany : ((tw ++ dw).take (tw.length - 1)).any (fun ch => ch ≠ '.') = false := by
        rw [htake, List.any_eq_false]
        intro z hz
        have hzmem : z ∈ tw := List.take_subset _ _ hz
        have hzd := htw z hzmem
        simp [hzd]
      rw [if_neg (fun hc => by rw [hany] at hc; exact Bool.noConfusion hc)]

theorem extOfBasename_eq_dropWhile (b : List Char) :
    extOfBasename b =
      (match rfind (b.dropWhile (fun ch => ch = '.')) '.' with
        | none => []
        | some j2 => (b.dropWhile (fun ch => ch = '.')).drop j2) := by
  have hsplit : b.takeWhile (fun ch => ch = '.') ++ b.dropWhile (fun ch => ch = '.') = b :=
    List.takeWhile_append_dropWhile _ _
  have htw : ∀ x ∈ b.takeWhile (fun ch => ch = '.'), x = '.' := by
    intro x hx
    have h1 := List.mem_takeWhile_imp hx
    simp only [decide_eq_true_eq] at h1
    exact h1
  have hdwhead : ∀ x t, b.dropWhile (fun ch => ch = '.') = x :: t → ¬ x = '.' := by
    intro x t hxt
    have := dropWhile_head_false hxt
    simpa using this
  conv_lhs => rw [← hsplit]
  exact extOfBasename_split _ _ htw hdwhead

/-- The filetype recorded by `create_part_manifest` equals the
spec-worded, case-preserving final extension of the relative path. -/
theorem filetype_eq_spec_filetype (rel : String) : filetype rel = spec_filetype rel := by
  have hspec : spec_extension rel.data =
      (match rfind ((basenameOf rel.data).dropWhile (fun ch => ch = '.')) '.' with
        | none => []
        | some j => ((basenameOf rel.data).dropWhile (fun ch => ch = '.')).drop (j + 1)) := rfl
  unfold filetype spec_filetype
  rw [splitext_ext_eq_extOfBasename, extOfBasename_eq_dropWhile, hspec]
  cases hdw : rfind ((basenameOf rel.data).dropWhile (fun ch => ch = '.')) '.' with
  | none => rfl
  | some j2 =>
    exact congrArg String.mk (List.drop_drop 1 j2 _)

/-- C6 as stated is false on the code: for the relative path `A.TXT` the
recorded filetype is `TXT`, while the spec's formula (final extension,
lower-cased, without the leading separator) gives `txt`. -/
theorem C6_counterexample :
    ((create_part_manifest (fun _ => 0) [⟨"A.TXT", "/src/A.TXT", 5⟩]
        "u_part1.tar.gz" "h" 1).files.map (fun e => e.filetype)) = ["TXT"] ∧
    spec_filetype_lowercased "A.TXT" = "txt" ∧
    ("TXT" : String) ≠ "txt" :=
  ⟨rfl, rfl, by decide⟩

/-- C6 amended: the recorded filetype is the final extension of the
file's relative path without the leading separator, with its original
case preserved (no lower-casing is applied), and a path with no dot at
all gets an empty filetype. -/
theorem C6_filetype_amended :
    (∀ (mtimeOf : String → Nat) (part_files : List FileDesc) (tar_name sha : String)
        (part_idx : Nat),
      (create_part_manifest mtimeOf part_files tar_name sha part_idx).files.map
          (fun e => e.filetype) =
        part_files.map (fun f => spec_filetype f.rel)) ∧
    (∀ rel : String, '.' ∉ rel.data → filetype rel = "") := by
  constructor
  · intro mtimeOf part_files tar_name sha part_idx
    unfold create_part_manifest
    rw [List.map_map]
    refine List.map_congr_left ?_
    intro f _
    exact filetype_eq_spec_filetype f.rel
  · intro rel h
    unfold filetype splitext_ext
    rw [rfind_none_of_not_mem h]
    rfl


/-- Witness for the amended C6: a mixed-case extension is recorded with
its case preserved, and an extensionless path gets the empty filetype. -/
theorem C6_filetype_amended_witness :
    ((create_part_manifest (fun _ => 0) [⟨"dir/photo.JPG", "/s/dir/photo.JPG", 7⟩]
        "t.tar.gz" "h" 1).files.map (fun e => e.filetype)) =
      [spec_filetype "dir/photo.JPG"] ∧
    filetype "noext" = "" :=
  ⟨C6_filetype_amended.1 (fun _ => 0) [⟨"dir/photo.JPG", "/s/dir/photo.JPG", 7⟩]
      "t.tar.gz" "h" 1,
    C6_filetype_amended.2 "noext" (by decide)⟩

end Uploader
